import Mathlib

/-!
Verification of the fashion_poc trend-aware recommender.

Shallow embedding of the ranking core of the repository:

* `src/app.py` — `recommend`: embeds the query, normalizes it, pulls an
  oversampled pool of `k*5` nearest neighbours from the faiss index, resolves
  each candidate positionally in the `items` table, filters by style, blends
  similarity with the clamped latest trend velocity (weight `0.25`), stops at
  `k` accepted candidates, and sorts the accepted tuples with Python's
  `list.sort(reverse=True)`.
* `src/trend_metrics.py` — `calc_trends`: groups items per `(style, day)`,
  smooths the daily counts with pandas `ewm(span=span).mean()` (whose default
  is `adjust=True`), and takes the first difference as the velocity.
* `src/embed_index.py` — `build_faiss` (normalize embeddings, add all of them,
  or return early on an empty table) and the `__main__` ingestion loop (which
  calls `upsert_item` twice per image file).

Numeric values are modelled over `ℚ` (the float arithmetic of the sources,
made exact).  External library behaviour that the code relies on is modelled
from its documented semantics: faiss `IndexFlatIP.search` returns results by
inner product descending and pads missing slots with label `-1`, and pandas
`DataFrame.iloc` resolves negative positions from the end of the table.
-/

/-! ## Vectors and faiss -/

/-- Embedding vectors (numpy `float32` rows, modelled exactly over `ℚ`). -/
abbrev Vec := List ℚ

/-- Inner product of two vectors, the score produced by `faiss.IndexFlatIP`. -/
def innerProd (u v : Vec) : ℚ := (List.zipWith (fun a b => a * b) u v).sum

/-- Squared L2 norm of a vector. -/
def normSqOf (v : Vec) : ℚ := (v.map (fun x => x * x)).sum

/-- Exact rational square root: returns the square root when the argument is
the square of a rational number, and `0` otherwise.  `faiss.normalize_L2`
divides by the real square root of the squared norm; this model is exact on
every vector whose norm is rational (in particular on `0` and on all concrete
vectors used below). -/
def ratSqrt (q : ℚ) : ℚ :=
  if 0 ≤ q.num ∧ Nat.sqrt q.num.toNat ^ 2 = q.num.toNat ∧ Nat.sqrt q.den ^ 2 = q.den
  then (Nat.sqrt q.num.toNat : ℚ) / (Nat.sqrt q.den : ℚ)
  else 0

/-- Model of `faiss.normalize_L2`: divide every component by the L2 norm.  The source
applies it unconditionally; there is no guard for a zero norm (IEEE arithmetic
then produces `0 * inf = NaN`; in this exact model division by `ratSqrt 0 = 0`
yields the zero vector — in both semantics the vector stays non-unit and is
*not* rejected). -/
def normalizeL2 (v : Vec) : Vec := v.map (fun x => x / ratSqrt (normSqOf v))

/-- The distance filler faiss writes into result slots that could not be
filled because the index holds fewer vectors than requested (the float
`-FLT_MAX`; only its sign and magnitude class matter here). -/
def padDist : ℚ := -(2 ^ 128)

/-- Comparator for search results: score descending, ties by insertion index
ascending (a deterministic model of exact `IndexFlatIP` search). -/
def candLe (a b : ℕ × ℚ) : Bool :=
  decide (b.2 < a.2) || (decide (a.2 = b.2) && decide (a.1 ≤ b.1))

/-- The comparator `candLe` as a relation, for `List.insertionSort`. -/
def candRel (a b : ℕ × ℚ) : Prop := candLe a b = true

instance : DecidableRel candRel := fun a b => instDecidableEqBool (candLe a b) true

/-- All stored vectors of the index, scored against the query and tagged with
their insertion position. -/
def scoredOf (idx : List Vec) (q : Vec) : List (ℕ × ℚ) :=
  (List.range idx.length).map (fun i => (i, innerProd q (idx.getD i [])))

/-- Model of `index.search(q, n)` on a `faiss.IndexFlatIP` holding `idx`: the top `n`
stored vectors by inner product (descending), padded up to length `n` with
label `-1` and distance `-FLT_MAX` when the index holds fewer than `n`
vectors. -/
def searchFaiss (idx : List Vec) (q : Vec) (n : ℕ) : List (Int × ℚ) :=
  ((List.insertionSort candRel (scoredOf idx q)).take n).map (fun p => ((p.1 : Int), p.2))
    ++ List.replicate (n - idx.length) ((-1 : Int), padDist)

/-! ## The items table and the scorer (`src/app.py`, `recommend`) -/

/-- One row of the `items` table as `recommend` uses it
(`pd.read_sql("SELECT rowid,* FROM items")`, positional order). -/
structure ItemRow where
  localPath : String
  style : String
  deriving DecidableEq, Repr

/-- Model of `items.iloc[i]`: pandas positional lookup.  A non-negative position must
be inside the table; a negative position counts from the end (so `-1` is the
last row of a non-empty table).  `none` models the `IndexError` pandas raises
when the position is out of bounds. -/
def derefRow (items : List ItemRow) (i : Int) : Option ItemRow :=
  if 0 ≤ i then items[i.toNat]?
  else if i.natAbs ≤ items.length then items[items.length - i.natAbs]? else none

/-- Model of `latest.get(style, 0.0)`: the velocity of the chronologically last trend
row for the style, defaulting to `0`. -/
def lookupVel (latest : List (String × ℚ)) (s : String) : ℚ :=
  (latest.lookup s).getD 0

/-- The style filter of `recommend`: `if styles and row["style"] not in
styles: continue` — a candidate is accepted iff the filter is empty or
contains its style. -/
def styleOk (styles : List String) (s : String) : Bool :=
  styles.isEmpty || styles.contains s

/-- The blended score `float(dist) + 0.25 * max(0.0, latest.get(style, 0.0))`. -/
def combinedScore (latest : List (String × ℚ)) (st : String) (dist : ℚ) : ℚ :=
  dist + (1 / 4) * max 0 (lookupVel latest st)

/-- The tuples `recommend` accumulates: `(score, local_path, style)`. -/
abbrev Entry := ℚ × String × String

/-- The tuple appended to `chosen` for an accepted candidate. -/
def entryOf (latest : List (String × ℚ)) (row : ItemRow) (dist : ℚ) : Entry :=
  (combinedScore latest row.style dist, row.localPath, row.style)

/-- The candidate walk of `recommend`: dereference the positional index
(raising, i.e. `none`, when pandas would), skip filtered styles without
counting them, append the scored tuple otherwise, and break once `k` tuples
have been accepted (the length test runs after the append, as in the
source). -/
def chooseLoop (items : List ItemRow) (latest : List (String × ℚ))
    (styles : List String) (k : ℕ) : List (Int × ℚ) → List Entry → Option (List Entry)
  | [], acc => some acc
  | c :: rest, acc =>
    match derefRow items c.1 with
    | none => none
    | some row =>
      if styleOk styles row.style then
        if k ≤ acc.length + 1 then some (acc ++ [entryOf latest row c.2])
        else chooseLoop items latest styles k rest (acc ++ [entryOf latest row c.2])
      else chooseLoop items latest styles k rest acc

/-- What one candidate contributes to the accepted list when no error occurs:
`none` when its style is filtered out, the scored tuple otherwise.  Used to
state the characterization of `chooseLoop`. -/
def okScore (items : List ItemRow) (latest : List (String × ℚ))
    (styles : List String) (c : Int × ℚ) : Option Entry :=
  match derefRow items c.1 with
  | none => none
  | some row => if styleOk styles row.style then some (entryOf latest row c.2) else none

/-! ### Python's `chosen.sort(reverse=True)`

Python compares the `(score, local_path, style)` tuples lexicographically,
strings by code points, and `reverse=True` produces a stable descending sort.
`List.insertionSort` with the complement of the strict tuple order is exactly
such a stable descending sort. -/

/-- Python string comparison: lexicographic on code points, a proper prefix is
smaller. -/
def charListLtB : List Char → List Char → Bool
  | _, [] => false
  | [], _ :: _ => true
  | c :: cs, d :: ds =>
    decide (c.toNat < d.toNat) || (decide (c.toNat = d.toNat) && charListLtB cs ds)

/-- Python `<` on strings. -/
def pyStrLt (a b : String) : Bool := charListLtB a.toList b.toList

/-- Lexicographic combination of two strict comparators, as Python compares
tuples: the head decides unless equal, then the tail decides. -/
def lexB {α β : Type} [DecidableEq α] (ltA : α → α → Bool) (ltB : β → β → Bool)
    (a b : α × β) : Bool :=
  ltA a.1 b.1 || (decide (a.1 = b.1) && ltB a.2 b.2)

/-- Python `<` on floats (here exact rationals). -/
def ratLtB (x y : ℚ) : Bool := decide (x < y)

/-- Python `<` on the `(score, local_path, style)` tuples. -/
def pyEntryLt : Entry → Entry → Bool := lexB ratLtB (lexB pyStrLt pyStrLt)

/-- The descending preorder realized by `sort(reverse=True)`:
`a` may stay before `b` iff `a` is not strictly smaller than `b`. -/
def pyDescRel (a b : Entry) : Prop := pyEntryLt a b = false

instance : DecidableRel pyDescRel := fun a b => instDecidableEqBool (pyEntryLt a b) false

/-- Model of `chosen.sort(reverse=True)`: stable descending sort of the accepted
tuples. -/
def pySortDesc (l : List Entry) : List Entry := List.insertionSort pyDescRel l

/-- The function `recommend` up to and including the sort: the sorted list of
`(score, local_path, style)` tuples, or `none` when the walk raised. -/
def recommendChosen (idx : List Vec) (items : List ItemRow)
    (latest : List (String × ℚ)) (q : Vec) (styles : List String) (k : ℕ) :
    Option (List Entry) :=
  (chooseLoop items latest styles k (searchFaiss idx (normalizeL2 q) (k * 5)) []).map
    pySortDesc

/-- Model of `recommend(user_img, styles, k)` after the query has been embedded to `q`:
returns the gallery images (`local_path` column) and captions (`style`
column), or `none` when the walk raised an `IndexError`. -/
def recommend (idx : List Vec) (items : List ItemRow) (latest : List (String × ℚ))
    (q : Vec) (styles : List String) (k : ℕ) : Option (List String × List String) :=
  (recommendChosen idx items latest q styles k).map
    (fun l => (l.map (fun e => e.2.1), l.map (fun e => e.2.2)))

/-! ## Trend metrics (`src/trend_metrics.py`, `calc_trends`) -/

/-- One raw catalog event: a style label and the UTC calendar day (as an
ordinal) of its `ts` timestamp. -/
structure RawItem where
  style : String
  day : ℕ
  deriving DecidableEq, Repr

/-- Insert a day into an ascending duplicate-free day list. -/
def insertDay (d : ℕ) : List ℕ → List ℕ
  | [] => [d]
  | x :: xs => if d < x then d :: x :: xs else if d = x then x :: xs else x :: insertDay d xs

/-- The distinct days on which the style has at least one event, ascending
(the group keys of `groupby(["style","day"]).size()` after
`sort_values("day")`). -/
def sortedDays (items : List RawItem) (s : String) : List ℕ :=
  ((items.filter (fun it => it.style == s)).map (fun it => it.day)).foldr insertDay []

/-- The number of events of the style on the day (`groupby(...).size()`). -/
def countOn (items : List RawItem) (s : String) (d : ℕ) : ℕ :=
  (items.filter (fun it => it.style == s && it.day == d)).length

/-- pandas `Series.ewm(span=span).mean()` with the library default
`adjust=True`: the running weighted average whose numerator and denominator
both decay by `1 - alpha`; `emaAux` carries both accumulators. -/
def emaAux (alpha : ℚ) : List ℚ → ℚ → ℚ → List ℚ
  | [], _, _ => []
  | x :: rest, num, den =>
    ((x + (1 - alpha) * num) / (1 + (1 - alpha) * den)) ::
      emaAux alpha rest (x + (1 - alpha) * num) (1 + (1 - alpha) * den)

/-- The smoothed curve `gdf["count"].ewm(span=span).mean()` (pandas default
`adjust=True`), as a function of `alpha = 2 / (span + 1)`. -/
def emaAdjusted (alpha : ℚ) (xs : List ℚ) : List ℚ := emaAux alpha xs 0 0

/-- Model of `gdf["ema"].diff().fillna(0)`: first difference with `0` in the first
slot. -/
def diffFillZero : List ℚ → List ℚ
  | [] => []
  | e :: rest => 0 :: List.zipWith (fun a b => a - b) rest (e :: rest)

/-- One persisted row of the `trends` table for a fixed style. -/
structure TrendPoint where
  day : ℕ
  count : ℕ
  ema : ℚ
  velocity : ℚ
  deriving DecidableEq, Repr

/-- Model of `calc_trends(span)` restricted to one style: day-sorted counts, smoothed
curve, velocity. -/
def calcTrendsFor (span : ℕ) (items : List RawItem) (s : String) : List TrendPoint :=
  let days := sortedDays items s
  let counts := days.map (fun d => (countOn items s d : ℚ))
  let alpha : ℚ := 2 / ((span : ℚ) + 1)
  let emas := emaAdjusted alpha counts
  let vels := diffFillZero emas
  (days.zip ((days.map (countOn items s)).zip (emas.zip vels))).map
    (fun p => ⟨p.1, p.2.1, p.2.2.1, p.2.2.2⟩)

/-- Model of `trends.sort_values("day").groupby("style").tail(1)["velocity"]` with the
`dict.get(style, 0.0)` default: the velocity of the chronologically last trend
row of the style, or `0`. -/
def latestVelocityOf (span : ℕ) (items : List RawItem) (s : String) : ℚ :=
  (((calcTrendsFor span items s).map (fun t => t.velocity)).getLast?).getD 0

/-- The EMA recursion stated by the specification (for the refinement claim
C1 only): `ema[0] = count[0]`, `ema[i] = alpha*count[i] + (1-alpha)*ema[i-1]`.
This follows the spec's words; the source uses pandas `ewm`, modelled by
`emaAdjusted` above. -/
def emaSpecAux (alpha : ℚ) (prev : ℚ) : List ℚ → List ℚ
  | [] => []
  | x :: rest =>
    (alpha * x + (1 - alpha) * prev) :: emaSpecAux alpha (alpha * x + (1 - alpha) * prev) rest

/-- Entry point of the spec's recursion, see `emaSpecAux`. -/
def emaSpecRecursive (alpha : ℚ) : List ℚ → List ℚ
  | [] => []
  | x :: rest => x :: emaSpecAux alpha x rest

/-- Geometrically weighted sum: `wSum r [a0, a1, ..., am] = Σ aj * r^j`.
Used to state the closed form of the pandas `adjust=True` EMA. -/
def wSum (r : ℚ) : List ℚ → ℚ
  | [] => 0
  | x :: t => x + r * wSum r t

/-- The spec's trend scenario: style "streetwear" with daily counts
`[2, 2, 8, 2]` over four consecutive days. -/
def scenarioItems : List RawItem :=
  [⟨"streetwear", 0⟩, ⟨"streetwear", 0⟩, ⟨"streetwear", 1⟩, ⟨"streetwear", 1⟩,
   ⟨"streetwear", 2⟩, ⟨"streetwear", 2⟩, ⟨"streetwear", 2⟩, ⟨"streetwear", 2⟩,
   ⟨"streetwear", 2⟩, ⟨"streetwear", 2⟩, ⟨"streetwear", 2⟩, ⟨"streetwear", 2⟩,
   ⟨"streetwear", 3⟩, ⟨"streetwear", 3⟩]

/-! ## Index build and ingestion loop (`src/embed_index.py`) -/

/-- One row of `data/public_meta.csv` keyed by `local_path` (a
`csv.DictReader` row always carries every column). -/
structure CsvMeta where
  sub : String
  url : String
  ts : String
  deriving DecidableEq, Repr

/-- One row of the `items` table with every column `upsert_item` writes. -/
structure ItemFull where
  source : String
  url : String
  localPath : String
  ts : String
  style : String
  prob : ℚ
  emb : Vec
  deriving DecidableEq, Repr

/-- The first `upsert_item` call of the `__main__` loop: freshly generated
metadata `{"local_path": p, "ts": now, "url": "", "sub": "reddit"}`. -/
def freshRow (now p st : String) (prob : ℚ) (v : Vec) : ItemFull :=
  ⟨"reddit", "", p, now, st, prob, v⟩

/-- The second `upsert_item` call of the `__main__` loop:
`meta = meta_by_path.get(p, {})`, then every field via `meta.get(..., default)`. -/
def csvRow (metaByPath : List (String × CsvMeta)) (p st : String) (prob : ℚ) (v : Vec) :
    ItemFull :=
  match metaByPath.lookup p with
  | some m => ⟨m.sub, m.url, p, m.ts, st, prob, v⟩
  | none => ⟨"reddit", "", p, "", st, prob, v⟩

/-- The rows the `__main__` loop of `src/embed_index.py` inserts into `items`:
for every image path it embeds once and calls `upsert_item` twice — once with
fresh metadata and once with the `public_meta.csv` lookup — with the same
style, probability and embedding. -/
def mainRows (metaByPath : List (String × CsvMeta)) (now : String)
    (embedOf : String → Vec) (styleOf : String → String × ℚ)
    (paths : List String) : List ItemFull :=
  paths.flatMap (fun p =>
    [freshRow now p (styleOf p).1 (styleOf p).2 (embedOf p),
     csvRow metaByPath p (styleOf p).1 (styleOf p).2 (embedOf p)])

/-- Model of `build_faiss()`: read all embeddings, return early (building nothing) when
the table is empty, otherwise normalize every row and add all of them to a
fresh `IndexFlatIP`.  There is no error path and no per-item rejection. -/
def buildFaiss (embs : List Vec) : Option (List Vec) :=
  if embs.isEmpty then none else some (embs.map normalizeL2)

/-! ## General lemmas -/

theorem ratSqrt_one : ratSqrt 1 = 1 := by norm_num [ratSqrt]

theorem ratSqrt_zero : ratSqrt 0 = 0 := by norm_num [ratSqrt]

theorem length_emaAux (alpha : ℚ) :
    ∀ (xs : List ℚ) (num den : ℚ), (emaAux alpha xs num den).length = xs.length := by
  intro xs
  induction xs with
  | nil => intro num den; simp [emaAux]
  | cons x rest ih => intro num den; simp [emaAux, ih]

theorem length_emaAdjusted (alpha : ℚ) (xs : List ℚ) :
    (emaAdjusted alpha xs).length = xs.length := length_emaAux alpha xs 0 0

theorem charListLtB_asymm :
    ∀ {as bs : List Char}, charListLtB as bs = true → charListLtB bs as = false := by
  intro as
  induction as with
  | nil =>
    intro bs h
    cases bs with
    | nil => simp [charListLtB] at h
    | cons d ds => simp [charListLtB]
  | cons c cs ih =>
    intro bs h
    cases bs with
    | nil => simp [charListLtB] at h
    | cons d ds =>
      simp only [charListLtB, Bool.or_eq_true, Bool.and_eq_true, decide_eq_true_eq] at h
      rcases h with h | ⟨he, hr⟩
      · have h1 : ¬ d.toNat < c.toNat := by omega
        have h2 : ¬ d.toNat = c.toNat := by omega
        simp [charListLtB, h1, h2]
      · have h1 : ¬ d.toNat < c.toNat := by omega
        simp [charListLtB, h1, ih hr]

theorem charListLtB_trans :
    ∀ {as bs cs : List Char}, charListLtB as bs = true → charListLtB bs cs = true →
      charListLtB as cs = true := by
  intro as
  induction as with
  | nil =>
    intro bs cs h1 h2
    cases cs with
    | nil =>
      cases bs with
      | nil => simp [charListLtB] at h1
      | cons d ds => simp [charListLtB] at h2
    | cons e es => simp [charListLtB]
  | cons c cs ih =>
    intro bs ds h1 h2
    cases bs with
    | nil => simp [charListLtB] at h1
    | cons d dt =>
      cases ds with
      | nil => simp [charListLtB] at h2
      | cons e et =>
        simp only [charListLtB, Bool.or_eq_true, Bool.and_eq_true, decide_eq_true_eq]
          at h1 h2 ⊢
        rcases h1 with h1 | ⟨h1e, h1r⟩
        · rcases h2 with h2 | ⟨h2e, h2r⟩
          · exact Or.inl (Nat.lt_trans h1 h2)
          · exact Or.inl (h2e ▸ h1)
        · rcases h2 with h2 | ⟨h2e, h2r⟩
          · exact Or.inl (h1e ▸ h2)
          · exact Or.inr ⟨h1e.trans h2e, ih h1r h2r⟩

theorem charListLtB_antisymm :
    ∀ {as bs : List Char}, charListLtB as bs = false → charListLtB bs as = false →
      as = bs := by
  intro as
  induction as with
  | nil =>
    intro bs h1 _
    cases bs with
    | nil => rfl
    | cons d ds => simp [charListLtB] at h1
  | cons c cs ih =>
    intro bs h1 h2
    cases bs with
    | nil => simp [charListLtB] at h2
    | cons d ds =>
      simp only [charListLtB, Bool.or_eq_false_iff, Bool.and_eq_false_iff,
        decide_eq_false_iff_not] at h1 h2
      have he : c.toNat = d.toNat := by omega
      have hc : c = d := Char.ext (UInt32.toNat.inj he)
      have hr : cs = ds := by
        apply ih
        · rcases h1.2 with h | h
          · exact absurd he h
          · exact h
        · rcases h2.2 with h | h
          · exact absurd he.symm h
          · exact h
      rw [hc, hr]

theorem pyStrLt_asymm : ∀ x y : String, pyStrLt x y = true → pyStrLt y x = false :=
  fun _ _ h => charListLtB_asymm h

theorem pyStrLt_trans : ∀ x y z : String, pyStrLt x y = true → pyStrLt y z = true →
    pyStrLt x z = true := fun _ _ _ h1 h2 => charListLtB_trans h1 h2

theorem pyStrLt_antisymm : ∀ x y : String, pyStrLt x y = false → pyStrLt y x = false →
    x = y := fun _ _ h1 h2 => String.ext (charListLtB_antisymm h1 h2)

theorem lexB_asymm {α β : Type} [DecidableEq α] {ltA : α → α → Bool} {ltB : β → β → Bool}
    (hA : ∀ x y, ltA x y = true → ltA y x = false)
    (hB : ∀ x y, ltB x y = true → ltB y x = false) :
    ∀ a b : α × β, lexB ltA ltB a b = true → lexB ltA ltB b a = false := by
  rintro ⟨a1, a2⟩ ⟨b1, b2⟩ h
  simp only [lexB, Bool.or_eq_true, Bool.and_eq_true, decide_eq_true_eq] at h
  simp only [lexB, Bool.or_eq_false_iff, Bool.and_eq_false_iff, decide_eq_false_iff_not]
  rcases h with h | ⟨he, hb⟩
  · refine ⟨hA _ _ h, Or.inl ?_⟩
    intro h2
    rw [h2] at h
    exact absurd (hA _ _ h) (by simp [h])
  · subst he
    refine ⟨?_, Or.inr (hB _ _ hb)⟩
    cases h2 : ltA a1 a1
    · rfl
    · exact absurd (hA _ _ h2) (by simp [h2])

theorem lexB_trans {α β : Type} [DecidableEq α] {ltA : α → α → Bool} {ltB : β → β → Bool}
    (hA : ∀ x y z, ltA x y = true → ltA y z = true → ltA x z = true)
    (hB : ∀ x y z, ltB x y = true → ltB y z = true → ltB x z = true) :
    ∀ a b c : α × β, lexB ltA ltB a b = true → lexB ltA ltB b c = true →
      lexB ltA ltB a c = true := by
  rintro ⟨a1, a2⟩ ⟨b1, b2⟩ ⟨c1, c2⟩ h1 h2
  simp only [lexB, Bool.or_eq_true, Bool.and_eq_true, decide_eq_true_eq] at h1 h2 ⊢
  rcases h1 with h1 | ⟨h1e, h1b⟩
  · rcases h2 with h2 | ⟨h2e, h2b⟩
    · exact Or.inl (hA _ _ _ h1 h2)
    · exact Or.inl (h2e ▸ h1)
  · rcases h2 with h2 | ⟨h2e, h2b⟩
    · exact Or.inl (h1e ▸ h2)
    · exact Or.inr ⟨h1e.trans h2e, hB _ _ _ h1b h2b⟩

theorem lexB_antisymm {α β : Type} [DecidableEq α] {ltA : α → α → Bool} {ltB : β → β → Bool}
    (hA : ∀ x y, ltA x y = false → ltA y x = false → x = y)
    (hB : ∀ x y, ltB x y = false → ltB y x = false → x = y) :
    ∀ a b : α × β, lexB ltA ltB a b = false → lexB ltA ltB b a = false → a = b := by
  rintro ⟨a1, a2⟩ ⟨b1, b2⟩ h1 h2
  simp only [lexB, Bool.or_eq_false_iff, Bool.and_eq_false_iff,
    decide_eq_false_iff_not] at h1 h2
  have he : a1 = b1 := hA _ _ h1.1 h2.1
  subst he
  have hb : a2 = b2 := by
    apply hB
    · rcases h1.2 with h | h
      · exact absurd rfl h
      · exact h
    · rcases h2.2 with h | h
      · exact absurd rfl h
      · exact h
  rw [hb]

theorem ratLtB_asymm : ∀ x y : ℚ, ratLtB x y = true → ratLtB y x = false := by
  intro x y h
  simp only [ratLtB, decide_eq_true_eq] at h
  simp only [ratLtB, decide_eq_false_iff_not]
  exact lt_asymm h

theorem ratLtB_trans : ∀ x y z : ℚ, ratLtB x y = true → ratLtB y z = true →
    ratLtB x z = true := by
  intro x y z h1 h2
  simp only [ratLtB, decide_eq_true_eq] at h1 h2 ⊢
  exact lt_trans h1 h2

theorem ratLtB_antisymm : ∀ x y : ℚ, ratLtB x y = false → ratLtB y x = false → x = y := by
  intro x y h1 h2
  simp only [ratLtB, decide_eq_false_iff_not] at h1 h2
  exact le_antisymm (not_lt.mp h2) (not_lt.mp h1)

theorem pyEntryLt_asymm {a b : Entry} (h : pyEntryLt a b = true) : pyEntryLt b a = false :=
  lexB_asymm ratLtB_asymm (lexB_asymm pyStrLt_asymm pyStrLt_asymm) a b h

theorem pyEntryLt_trans {a b c : Entry} (h1 : pyEntryLt a b = true)
    (h2 : pyEntryLt b c = true) : pyEntryLt a c = true :=
  lexB_trans ratLtB_trans (lexB_trans pyStrLt_trans pyStrLt_trans) a b c h1 h2

theorem pyEntryLt_antisymm {a b : Entry} (h1 : pyEntryLt a b = false)
    (h2 : pyEntryLt b a = false) : a = b :=
  lexB_antisymm ratLtB_antisymm (lexB_antisymm pyStrLt_antisymm pyStrLt_antisymm) a b h1 h2

instance : IsTotal Entry pyDescRel := by
  constructor
  intro a b
  unfold pyDescRel
  cases h : pyEntryLt a b
  · exact Or.inl rfl
  · exact Or.inr (pyEntryLt_asymm h)

instance : IsTrans Entry pyDescRel := by
  constructor
  intro a b c h1 h2
  unfold pyDescRel at h1 h2 ⊢
  cases h3 : pyEntryLt a c
  · rfl
  · cases h4 : pyEntryLt b a
    · have : a = b := pyEntryLt_antisymm h1 h4
      rw [this] at h3
      rw [h3] at h2
      exact h2
    · have : pyEntryLt b c = true := pyEntryLt_trans h4 h3
      rw [this] at h2
      exact h2

/-- The sort of `recommend` is descending in the Python tuple order. -/
theorem pySortDesc_sorted (l : List Entry) : List.Sorted pyDescRel (pySortDesc l) :=
  List.sorted_insertionSort pyDescRel l

/-- The sort of `recommend` permutes the accepted list. -/
theorem pySortDesc_perm (l : List Entry) : (pySortDesc l).Perm l :=
  List.perm_insertionSort pyDescRel l

/-! ### Characterization of the candidate walk -/

/-- When every candidate of the pool dereferences and fewer than `k` tuples
have been accepted so far, the walk accepts exactly the first
`k - acc.length` unfiltered candidates, in pool order. -/
theorem chooseLoop_eq (items : List ItemRow) (latest : List (String × ℚ))
    (styles : List String) (k : ℕ) :
    ∀ (pool : List (Int × ℚ)) (acc : List Entry),
      (∀ c ∈ pool, (derefRow items c.1).isSome = true) → acc.length < k →
      chooseLoop items latest styles k pool acc =
        some (acc ++ (pool.filterMap (okScore items latest styles)).take (k - acc.length)) := by
  intro pool
  induction pool with
  | nil =>
    intro acc hd hk
    simp [chooseLoop]
  | cons c rest ih =>
    intro acc hd hk
    obtain ⟨row, hrow⟩ := Option.isSome_iff_exists.mp (hd c (by simp))
    cases hst : styleOk styles row.style
    · have hnone : okScore items latest styles c = none := by
        simp [okScore, hrow, hst]
      rw [chooseLoop, hrow]
      simp only [hst, Bool.false_eq_true, if_false]
      rw [ih acc (fun c2 hc2 => hd c2 (List.mem_cons_of_mem c hc2)) hk,
        List.filterMap_cons_none hnone]
    · have hsome : okScore items latest styles c = some (entryOf latest row c.2) := by
        simp [okScore, hrow, hst]
      rw [chooseLoop, hrow]
      simp only [hst, if_true]
      rw [List.filterMap_cons_some hsome]
      by_cases htop : k ≤ acc.length + 1
      · have hk1 : k - acc.length = 1 := by omega
        simp [htop, hk1]
      · have hlen : (acc ++ [entryOf latest row c.2]).length < k := by
          simp
          omega
        rw [if_neg htop, ih (acc ++ [entryOf latest row c.2])
          (fun c2 hc2 => hd c2 (List.mem_cons_of_mem c hc2)) hlen]
        have hk2 : k - acc.length = (k - (acc.length + 1)) + 1 := by omega
        simp [hk2, List.take_succ_cons]

/-- Every tuple the walk produces beyond its accumulator comes from a pool
candidate: a dereferenced row that passed the style filter, scored by
`entryOf`. -/
theorem chooseLoop_mem (items : List ItemRow) (latest : List (String × ℚ))
    (styles : List String) (k : ℕ) :
    ∀ (pool : List (Int × ℚ)) (acc res : List Entry),
      chooseLoop items latest styles k pool acc = some res →
      ∀ e ∈ res, e ∈ acc ∨ ∃ c, c ∈ pool ∧ ∃ row, derefRow items c.1 = some row ∧
        styleOk styles row.style = true ∧ e = entryOf latest row c.2 := by
  intro pool
  induction pool with
  | nil =>
    intro acc res h e he
    rw [chooseLoop] at h
    cases h
    exact Or.inl he
  | cons c rest ih =>
    intro acc res h e he
    rw [chooseLoop] at h
    cases hrow : derefRow items c.1 with
    | none => rw [hrow] at h; cases h
    | some row =>
      rw [hrow] at h
      cases hst : styleOk styles row.style with
      | false =>
        simp only [hst, Bool.false_eq_true, if_false] at h
        rcases ih acc res h e he with h2 | ⟨c2, hc2, hrest⟩
        · exact Or.inl h2
        · exact Or.inr ⟨c2, List.mem_cons_of_mem c hc2, hrest⟩
      | true =>
        simp only [hst, if_true] at h
        by_cases htop : k ≤ acc.length + 1
        · rw [if_pos htop] at h
          cases h
          rcases List.mem_append.mp he with h2 | h2
          · exact Or.inl h2
          · refine Or.inr ⟨c, List.mem_cons_self c rest, row, hrow, hst, ?_⟩
            simpa using h2
        · rw [if_neg htop] at h
          rcases ih (acc ++ [entryOf latest row c.2]) res h e he with h2 | ⟨c2, hc2, hrest⟩
          · rcases List.mem_append.mp h2 with h3 | h3
            · exact Or.inl h3
            · refine Or.inr ⟨c, List.mem_cons_self c rest, row, hrow, hst, ?_⟩
              simpa using h3
          · exact Or.inr ⟨c2, List.mem_cons_of_mem c hc2, hrest⟩

/-! ### Positional lookup and search-pool facts -/

/-- The lookup `items.iloc[i]` for a valid non-negative position is the row at that
position of the table, in row order. -/
theorem derefRow_nonneg (items : List ItemRow) (i : ℕ) (hi : i < items.length) :
    derefRow items (i : Int) = some items[i] := by
  simp [derefRow, List.getElem?_eq_getElem hi]

/-- The lookup `items.iloc[-1]` on a non-empty table yields its last row. -/
theorem derefRow_neg_one (items : List ItemRow) (h : items ≠ []) :
    derefRow items (-1) = some (items.getLast h) := by
  have hlen : 0 < items.length := List.length_pos.mpr h
  have h1 : items.length - 1 < items.length := by omega
  rw [derefRow, if_neg (by norm_num), if_pos (by simpa using hlen),
    List.getElem?_eq_getElem (by simpa using h1)]
  simp [List.getLast_eq_getElem]

/-- Every element of the search pool is either a real candidate
`(i, innerProd q (idx[i]))` with `i < idx.length`, or the `-1` filler. -/
theorem searchFaiss_mem (idx : List Vec) (q : Vec) (n : ℕ) :
    ∀ c ∈ searchFaiss idx q n,
      (∃ i : ℕ, i < idx.length ∧ c = ((i : Int), innerProd q (idx.getD i []))) ∨
        c = ((-1 : Int), padDist) := by
  intro c hc
  rcases List.mem_append.mp hc with h | h
  · obtain ⟨p, hp, hpc⟩ := List.mem_map.mp h
    have hp2 : p ∈ List.insertionSort candRel (scoredOf idx q) := List.mem_of_mem_take hp
    have hp3 : p ∈ scoredOf idx q := (List.perm_insertionSort candRel _).mem_iff.mp hp2
    obtain ⟨i, hi, hip⟩ := List.mem_map.mp hp3
    refine Or.inl ⟨i, List.mem_range.mp hi, ?_⟩
    rw [← hpc, ← hip]
  · exact Or.inr (List.mem_replicate.mp h).2

/-- When the index and the items table have the same size and the table is
non-empty, every pool candidate dereferences. -/
theorem searchFaiss_deref (idx : List Vec) (items : List ItemRow) (q : Vec) (n : ℕ)
    (hlen : idx.length = items.length) (hne : items ≠ []) :
    ∀ c ∈ searchFaiss idx q n, (derefRow items c.1).isSome = true := by
  intro c hc
  rcases searchFaiss_mem idx q n c hc with ⟨i, hi, hc2⟩ | hc2
  · rw [hc2]
    rw [derefRow_nonneg items i (hlen ▸ hi)]
    rfl
  · rw [hc2]
    rw [derefRow_neg_one items hne]
    rfl

theorem length_scoredOf (idx : List Vec) (q : Vec) : (scoredOf idx q).length = idx.length := by
  simp [scoredOf]

/-- When the pool request covers the whole index, the real part of the search
result is the full sorted candidate list. -/
theorem searchFaiss_eq_of_le (idx : List Vec) (q : Vec) (n : ℕ) (h : idx.length ≤ n) :
    searchFaiss idx q n =
      (List.insertionSort candRel (scoredOf idx q)).map (fun p => ((p.1 : Int), p.2))
        ++ List.replicate (n - idx.length) ((-1 : Int), padDist) := by
  rw [searchFaiss, List.take_of_length_le]
  rw [List.length_insertionSort, length_scoredOf]
  exact h

theorem length_filterMap_eq_countP {α β : Type} (f : α → Option β) (l : List α) :
    (l.filterMap f).length = l.countP (fun a => (f a).isSome) := by
  induction l with
  | nil => simp
  | cons a l ih =>
    cases h : f a with
    | none => rw [List.filterMap_cons_none h, List.countP_cons]; simp [h, ih]
    | some b => rw [List.filterMap_cons_some h, List.countP_cons]; simp [h, ih]

theorem countP_range_getD {α : Type} (l : List α) (d : α) (p : α → Bool) :
    (List.range l.length).countP (fun i => p (l.getD i d)) = l.countP p := by
  induction l using List.reverseRecOn with
  | nil => simp
  | append_singleton l a ih =>
    rw [List.length_append, List.length_singleton, List.range_succ, List.countP_append,
      List.countP_append]
    have h1 : (List.range l.length).countP (fun i => p ((l ++ [a]).getD i d)) =
        (List.range l.length).countP (fun i => p (l.getD i d)) := by
      apply List.countP_congr
      intro i hi
      rw [List.getD_append l [a] d i (List.mem_range.mp hi)]
    have h2 : (l ++ [a]).getD l.length d = a := by
      rw [List.getD_append_right l [a] d l.length le_rfl]
      simp
    rw [h1, ih]
    simp [h2, List.countP_cons]

theorem take_append_of_le {α : Type} (A B : List α) (k : ℕ) (h : A.length ≤ k) :
    List.take k (A ++ B) = A ++ List.take (k - A.length) B := by
  obtain ⟨j, rfl⟩ : ∃ j, k = A.length + j := ⟨k - A.length, by omega⟩
  rw [List.take_append]
  simp

theorem wSum_cons (r x : ℚ) (l : List ℚ) : wSum r (x :: l) = x + r * wSum r l := rfl

theorem wSum_append_single (r : ℚ) :
    ∀ (l : List ℚ) (x : ℚ), wSum r (l ++ [x]) = wSum r l + r ^ l.length * x := by
  intro l
  induction l with
  | nil => intro x; simp [wSum]
  | cons y t ih =>
    intro x
    rw [List.cons_append, wSum_cons, wSum_cons, ih, List.length_cons]
    ring

theorem wSum_replicate_succ (r : ℚ) (n : ℕ) :
    wSum r (List.replicate (n + 1) (1 : ℚ)) = 1 + r * wSum r (List.replicate n 1) := by
  rw [List.replicate_succ, wSum_cons]

theorem wSum_replicate_one (r : ℚ) :
    ∀ n : ℕ, wSum r (List.replicate (n + 1) 1) = wSum r (List.replicate n 1) + r ^ n := by
  intro n
  induction n with
  | zero => rw [wSum_replicate_succ]; simp [wSum]
  | succ n ih =>
    have h : 1 + r * wSum r (List.replicate n 1) = wSum r (List.replicate n 1) + r ^ n :=
      (wSum_replicate_succ r n).symm.trans ih
    rw [wSum_replicate_succ, ih]
    linear_combination h

/-- Closed form of the accumulator recursion behind the pandas `adjust=True`
EMA: entry `i` is the `(1-alpha)`-weighted sum of the first `i+1` inputs
(latest first) over the matching geometric weight total, with the initial
accumulators decayed `i+1` times. -/
theorem emaAux_getD (alpha : ℚ) :
    ∀ (xs : List ℚ) (num den : ℚ) (i : ℕ), i < xs.length →
      (emaAux alpha xs num den).getD i 0 =
        (wSum (1 - alpha) ((xs.take (i + 1)).reverse) + (1 - alpha) ^ (i + 1) * num) /
          (wSum (1 - alpha) (List.replicate (i + 1) 1) + (1 - alpha) ^ (i + 1) * den) := by
  intro xs
  induction xs with
  | nil => intro num den i h; simp at h
  | cons x rest ih =>
    intro num den i h
    cases i with
    | zero =>
      simp only [emaAux, List.getD_cons_zero, List.take_succ_cons, List.take_zero,
        List.reverse_cons, List.reverse_nil, List.nil_append, List.replicate_one, wSum]
      congr 1
      · ring
      · ring
    | succ i =>
      have h2 : i < rest.length := by simpa using h
      rw [show emaAux alpha (x :: rest) num den =
          ((x + (1 - alpha) * num) / (1 + (1 - alpha) * den)) ::
            emaAux alpha rest (x + (1 - alpha) * num) (1 + (1 - alpha) * den) from rfl]
      rw [List.getD_cons_succ, ih (x + (1 - alpha) * num) (1 + (1 - alpha) * den) i h2]
      have hlen : ((rest.take (i + 1)).reverse).length = i + 1 := by
        simp [List.length_take]
        omega
      rw [show ((x :: rest).take (i + 1 + 1)).reverse = (rest.take (i + 1)).reverse ++ [x] by
        simp [List.take_succ_cons]]
      rw [wSum_append_single, hlen, wSum_replicate_one (1 - alpha) (i + 1)]
      congr 1
      · ring
      · ring

theorem normSqOf_cons (x : ℚ) (t : Vec) : normSqOf (x :: t) = x * x + normSqOf t := by
  simp [normSqOf]

theorem normSqOf_div (v : Vec) (s : ℚ) :
    normSqOf (v.map (fun x => x / s)) = normSqOf v / s ^ 2 := by
  induction v with
  | nil => simp [normSqOf]
  | cons x t ih =>
    rw [List.map_cons, normSqOf_cons, normSqOf_cons, ih, add_div]
    congr 1
    rw [pow_two, div_mul_div_comm]

theorem mainRows_cons (mp : List (String × CsvMeta)) (now : String) (e : String → Vec)
    (s : String → String × ℚ) (p : String) (ps : List String) :
    mainRows mp now e s (p :: ps) =
      freshRow now p (s p).1 (s p).2 (e p) :: csvRow mp p (s p).1 (s p).2 (e p) ::
        mainRows mp now e s ps := by
  simp [mainRows]

theorem mainRows_nil (mp : List (String × CsvMeta)) (now : String) (e : String → Vec)
    (s : String → String × ℚ) : mainRows mp now e s [] = [] := rfl

/-! ## Claim C4 — `k ≤ 0` -/

/-- Claim C4, as stated, is false: `recommend` performs no argument
validation at all (no `InvalidArgumentError` exists anywhere in the source),
and a call with `k = 0` succeeds, returning empty galleries, instead of
failing: here a concrete call on a one-item index with `k = 0` returns
`some ([], [])` rather than an error. -/
theorem c4_counterexample :
    recommend [[1, 0]] [⟨"a", "s1"⟩] [] [1, 0] [] 0 = some ([], []) := by
  simp [recommend, recommendChosen, searchFaiss, chooseLoop, pySortDesc,
    List.insertionSort]

/-- Claim C4 amended: `recommend` does not validate `k`; for `k = 0` the
requested pool `k*5` is empty, the walk accepts nothing, and the call returns
the empty result without raising, for every index, table, trend table, query
and filter. -/
theorem c4_k_zero_returns_empty (idx : List Vec) (items : List ItemRow)
    (latest : List (String × ℚ)) (q : Vec) (styles : List String) :
    recommend idx items latest q styles 0 = some ([], []) := by
  simp [recommend, recommendChosen, searchFaiss, chooseLoop, pySortDesc,
    List.insertionSort]

/-! ## Claim C3 — empty index -/

/-- Claim C3: the spec requires an empty index to yield an empty result, not
an error.  The code instead raises: searching an empty faiss index returns a
pool of `-1` fillers, and `items.iloc[-1]` on the empty items table raises
`IndexError` (modelled by `none`), for every trend table, query, filter and
positive `k`. -/
theorem c3_empty_index_raises (latest : List (String × ℚ)) (q : Vec)
    (styles : List String) (k : ℕ) (hk : 1 ≤ k) :
    recommend [] [] latest q styles k = none := by
  have hpool : searchFaiss [] (normalizeL2 q) (k * 5) =
      ((-1 : Int), padDist) :: List.replicate (k * 5 - 1) ((-1 : Int), padDist) := by
    rw [searchFaiss]
    simp only [scoredOf, List.length_nil, List.range_zero, List.map_nil,
      List.insertionSort, List.take_nil, Nat.sub_zero, List.nil_append]
    rw [show k * 5 = (k * 5 - 1) + 1 by omega, List.replicate_succ]
    simp
  have hderef : derefRow [] (-1) = none := by simp [derefRow]
  rw [recommend, recommendChosen, hpool, chooseLoop, hderef]
  rfl

/-- Witness for C3 at a concrete failing input: empty index and empty items
table, any query, `k = 1` — the call raises (returns `none`). -/
theorem c3_witness : recommend [] [] [] [1, 0] [] 1 = none :=
  c3_empty_index_raises [] [1, 0] [] 1 (le_refl 1)

/-! ## Claim C8 — near-zero-norm embeddings at build time -/

/-- Claim C8, as stated, is false: `build_faiss` has no `InvalidEmbeddingError`
and never rejects an item.  The zero vector (norm `0`, which cannot be
normalized) is silently inserted: the build returns an index of size 1
containing it unchanged (in IEEE arithmetic it would be inserted as NaN
garbage), and its squared norm is `0`, not `1`. -/
theorem c8_counterexample :
    buildFaiss [[0, 0]] = some [[0, 0]] ∧ normSqOf [0, 0] = 0 := by
  constructor
  · norm_num [buildFaiss, normalizeL2, normSqOf, ratSqrt_zero]
  · norm_num [normSqOf]

/-- Claim C8 amended: `build_faiss` divides every embedding by its L2 norm and
inserts all of them — the build never fails on a vector and never skips one,
a zero-norm vector included; whenever a vector's norm is a (nonzero) exactly
representable square root, the inserted vector does have unit norm. -/
theorem c8_build_never_rejects (embs : List Vec) (h : embs ≠ []) :
    buildFaiss embs = some (embs.map normalizeL2) ∧
    (embs.map normalizeL2).length = embs.length ∧
    ∀ v : Vec, ratSqrt (normSqOf v) ^ 2 = normSqOf v → normSqOf v ≠ 0 →
      normSqOf (normalizeL2 v) = 1 := by
  refine ⟨?_, List.length_map _ _, ?_⟩
  · simp [buildFaiss, h]
  · intro v hsq hnz
    rw [normalizeL2, normSqOf_div, hsq]
    exact div_self hnz

/-- Witness for C8: a one-vector build inserts the (normalized) vector, and
the vector `[3/5, 4/5]` (unit norm, exactly representable) keeps norm 1. -/
theorem c8_witness :
    buildFaiss [[1, 0]] = some ([[1, 0]].map normalizeL2) ∧
    normSqOf (normalizeL2 [3/5, 4/5]) = 1 := by
  constructor
  · exact (c8_build_never_rejects [[1, 0]] (by simp)).1
  · exact (c8_build_never_rejects [[1, 0]] (by simp)).2.2 [3/5, 4/5]
      (by norm_num [normSqOf, ratSqrt_one]) (by norm_num [normSqOf])

/-! ## Claim C9 — the ingestion loop upserts every image twice -/

theorem mainRows_length (mp : List (String × CsvMeta)) (now : String) (e : String → Vec)
    (s : String → String × ℚ) :
    ∀ paths : List String, (mainRows mp now e s paths).length = 2 * paths.length := by
  intro paths
  induction paths with
  | nil => rfl
  | cons p ps ih =>
    rw [mainRows_cons]
    simp only [List.length_cons, ih, List.length_cons]
    omega

theorem mainRows_map_emb (mp : List (String × CsvMeta)) (now : String) (e : String → Vec)
    (s : String → String × ℚ) :
    ∀ paths : List String, (mainRows mp now e s paths).map (fun r => r.emb) =
      paths.flatMap (fun p => [e p, e p]) := by
  intro paths
  induction paths with
  | nil => rfl
  | cons p ps ih =>
    rw [mainRows_cons]
    simp only [List.map_cons, ih, List.flatMap_cons, freshRow, csvRow]
    cases h : mp.lookup p <;> simp [h]

theorem mainRows_mem (mp : List (String × CsvMeta)) (now : String) (e : String → Vec)
    (s : String → String × ℚ) :
    ∀ (paths : List String), ∀ p ∈ paths,
      freshRow now p (s p).1 (s p).2 (e p) ∈ mainRows mp now e s paths ∧
      csvRow mp p (s p).1 (s p).2 (e p) ∈ mainRows mp now e s paths := by
  intro paths
  induction paths with
  | nil => intro p hp; cases hp
  | cons a ps ih =>
    intro p hp
    rw [mainRows_cons]
    rcases List.mem_cons.mp hp with rfl | hp2
    · exact ⟨List.mem_cons_self _ _, List.mem_cons_of_mem _ (List.mem_cons_self _ _)⟩
    · exact ⟨List.mem_cons_of_mem _ (List.mem_cons_of_mem _ (ih p hp2).1),
        List.mem_cons_of_mem _ (List.mem_cons_of_mem _ (ih p hp2).2)⟩

/-- Claim C9: in one run of the `src/embed_index.py` entry point every image
file leads to two `upsert_item` calls — one row with freshly generated
metadata (`freshRow`) and one with the `public_meta.csv` lookup (`csvRow`) —
so the items table gains `2 * n` rows, the embedding column repeats each
image's embedding twice back to back, and the faiss index subsequently built
from that catalog stores each image's (normalized) embedding twice. -/
theorem c9_double_upsert (mp : List (String × CsvMeta)) (now : String) (e : String → Vec)
    (s : String → String × ℚ) (paths : List String) :
    (mainRows mp now e s paths).length = 2 * paths.length ∧
    (mainRows mp now e s paths).map (fun r => r.emb) =
      paths.flatMap (fun p => [e p, e p]) ∧
    (∀ p ∈ paths, freshRow now p (s p).1 (s p).2 (e p) ∈ mainRows mp now e s paths ∧
      csvRow mp p (s p).1 (s p).2 (e p) ∈ mainRows mp now e s paths) ∧
    (paths ≠ [] → buildFaiss ((mainRows mp now e s paths).map (fun r => r.emb)) =
      some (paths.flatMap (fun p => [normalizeL2 (e p), normalizeL2 (e p)]))) := by
  refine ⟨mainRows_length mp now e s paths, mainRows_map_emb mp now e s paths,
    mainRows_mem mp now e s paths, ?_⟩
  intro hne
  rw [mainRows_map_emb]
  have hne2 : paths.flatMap (fun p => [e p, e p]) ≠ [] := by
    cases paths with
    | nil => exact absurd rfl hne
    | cons a ps => simp [List.flatMap_cons]
  rw [buildFaiss, if_neg (by simpa using hne2)]
  rw [List.map_flatMap]
  rfl

/-- Witness for C9: a single image `"a"` yields two identical-embedding rows
and an index holding its embedding twice. -/
theorem c9_witness :
    (mainRows [] "t" (fun _ => [1, 0]) (fun _ => ("s", 1)) ["a"]).length = 2 ∧
    buildFaiss ((mainRows [] "t" (fun _ => [1, 0]) (fun _ => ("s", 1)) ["a"]).map
      (fun r => r.emb)) = some [[1, 0], [1, 0]] := by
  have h := c9_double_upsert [] "t" (fun _ => [1, 0]) (fun _ => ("s", 1)) ["a"]
  refine ⟨h.1, ?_⟩
  rw [h.2.2.2 (by simp)]
  have hn : normalizeL2 [1, 0] = [1, 0] := by
    norm_num [normalizeL2, normSqOf, ratSqrt_one]
  simp [hn]

/-! ## Claim C5 — combined score formula -/

/-- Claim C5: every accepted entry of `recommend` is scored as
`similarity + 0.25 * max(0, latestVelocity(style))` for its dereferenced row
(here `0.25` is the source's fixed trend weight); consequently a candidate of
a style with non-positive latest velocity scores exactly its similarity, and
no combined score ever falls below the raw similarity. -/
theorem c5_combined_score (idx : List Vec) (items : List ItemRow)
    (latest : List (String × ℚ)) (q : Vec) (styles : List String) (k : ℕ)
    (l : List Entry) (h : recommendChosen idx items latest q styles k = some l) :
    ∀ e ∈ l, ∃ c ∈ searchFaiss idx (normalizeL2 q) (k * 5), ∃ row : ItemRow,
      derefRow items c.1 = some row ∧
      e = (combinedScore latest row.style c.2, row.localPath, row.style) ∧
      c.2 ≤ e.1 ∧
      (lookupVel latest row.style ≤ 0 → e.1 = c.2) := by
  intro e he
  rw [recommendChosen] at h
  obtain ⟨res, hres, hsort⟩ := Option.map_eq_some'.mp h
  have he2 : e ∈ res := by
    rw [← hsort] at he
    exact (pySortDesc_perm res).subset he
  rcases chooseLoop_mem items latest styles k
      (searchFaiss idx (normalizeL2 q) (k * 5)) [] res hres e he2 with h2 | ⟨c, hc, row, hrow, hst, he3⟩
  · cases h2
  · refine ⟨c, hc, row, hrow, he3, ?_, ?_⟩
    · rw [he3]
      unfold entryOf combinedScore
      have : 0 ≤ (1 / 4 : ℚ) * max 0 (lookupVel latest row.style) := by
        apply mul_nonneg
        · norm_num
        · exact le_max_left 0 _
      simp only
      linarith
    · intro hvel
      rw [he3]
      unfold entryOf combinedScore
      simp only
      rw [max_eq_left hvel]
      ring

/-- Witness for C5: a concrete one-item query where the style has no trend
row, so the combined score equals the raw similarity `1`. -/
theorem c5_witness :
    ∃ c ∈ searchFaiss [[1, 0]] (normalizeL2 [1, 0]) (1 * 5), ∃ row : ItemRow,
      derefRow [⟨"a", "s"⟩] c.1 = some row ∧
      ((1 : ℚ), "a", "s") = (combinedScore [] row.style c.2, row.localPath, row.style) ∧
      c.2 ≤ (1 : ℚ) ∧
      (lookupVel [] row.style ≤ 0 → (1 : ℚ) = c.2) := by
  have hchosen : recommendChosen [[1, 0]] [⟨"a", "s"⟩] [] [1, 0] [] 1 =
      some [((1 : ℚ), "a", "s")] := by
    have h1 : lookupVel [] "s" = 0 := rfl
    norm_num [recommendChosen, searchFaiss, scoredOf, innerProd, normalizeL2,
      normSqOf, ratSqrt_one, chooseLoop, derefRow, styleOk, entryOf, combinedScore,
      h1, pySortDesc, List.insertionSort, List.orderedInsert, candRel, candLe, padDist]
  exact c5_combined_score [[1, 0]] [⟨"a", "s"⟩] [] [1, 0] [] 1 [((1 : ℚ), "a", "s")]
    hchosen ((1 : ℚ), "a", "s") (List.mem_singleton.mpr rfl)

/-! ## Claim C6 — pool walk, skipping, and stopping -/

/-- Claim C6: (i) when every pool candidate dereferences and `k ≥ 1`,
`recommend` accepts exactly the first `k` candidates of the
similarity-ordered pool that pass the style filter — filtered candidates are
skipped without counting against the pool, and the walk stops at `k` accepted
or pool exhaustion; (ii) with an empty filter no candidate is ever excluded on
category grounds (the accepted prefix source keeps the full pool length);
(iii) with a non-empty filter matching no dereferenced row of the pool the
result is the empty list. -/
theorem c6_pool_walk (idx : List Vec) (items : List ItemRow)
    (latest : List (String × ℚ)) (q : Vec) (styles : List String) (k : ℕ)
    (hk : 1 ≤ k)
    (hd : ∀ c ∈ searchFaiss idx (normalizeL2 q) (k * 5),
      (derefRow items c.1).isSome = true) :
    recommendChosen idx items latest q styles k =
      some (pySortDesc (((searchFaiss idx (normalizeL2 q) (k * 5)).filterMap
        (okScore items latest styles)).take k)) ∧
    (styles = [] →
      ((searchFaiss idx (normalizeL2 q) (k * 5)).filterMap
        (okScore items latest styles)).length =
        (searchFaiss idx (normalizeL2 q) (k * 5)).length) ∧
    ((∀ c ∈ searchFaiss idx (normalizeL2 q) (k * 5), ∀ row : ItemRow,
        derefRow items c.1 = some row → styles.contains row.style = false) →
      styles ≠ [] → recommend idx items latest q styles k = some ([], [])) := by
  have hmain : recommendChosen idx items latest q styles k =
      some (pySortDesc (((searchFaiss idx (normalizeL2 q) (k * 5)).filterMap
        (okScore items latest styles)).take k)) := by
    rw [recommendChosen,
      chooseLoop_eq items latest styles k (searchFaiss idx (normalizeL2 q) (k * 5)) []
        hd (by simpa using hk)]
    simp
  refine ⟨hmain, ?_, ?_⟩
  · intro hempty
    rw [length_filterMap_eq_countP]
    have h1 : (searchFaiss idx (normalizeL2 q) (k * 5)).countP
        (fun c => (okScore items latest styles c).isSome) =
        (searchFaiss idx (normalizeL2 q) (k * 5)).countP (fun _ => true) := by
      apply List.countP_congr
      intro c hc
      obtain ⟨row, hrow⟩ := Option.isSome_iff_exists.mp (hd c hc)
      simp [okScore, hrow, styleOk, hempty]
    rw [h1, List.countP_true]
  · intro hmiss hne
    have hnil : (searchFaiss idx (normalizeL2 q) (k * 5)).filterMap
        (okScore items latest styles) = [] := by
      rw [List.filterMap_eq_nil_iff]
      intro c hc
      obtain ⟨row, hrow⟩ := Option.isSome_iff_exists.mp (hd c hc)
      have hcontains := hmiss c hc row hrow
      have hok : styleOk styles row.style = false := by
        rw [styleOk, Bool.or_eq_false_iff]
        refine ⟨?_, hcontains⟩
        cases styles with
        | nil => exact absurd rfl hne
        | cons a t => rfl
      simp [okScore, hrow, hok]
    rw [recommend, hmain, hnil]
    simp [pySortDesc, List.insertionSort]

/-- Witness for C6: two items of styles `s1`, `s2` and the filter `["zz"]`
matching neither — the result is empty. -/
theorem c6_witness :
    recommend [[1, 0], [0, 1]] [⟨"a", "s1"⟩, ⟨"b", "s2"⟩] [] [1, 0] ["zz"] 1 =
      some ([], []) := by
  have hpool : searchFaiss [[1, 0], [0, 1]] (normalizeL2 [1, 0]) (1 * 5) =
      [((0 : Int), (1 : ℚ)), ((1 : Int), (0 : ℚ)), ((-1 : Int), padDist),
        ((-1 : Int), padDist), ((-1 : Int), padDist)] := by
    have hrep : List.replicate 3 ((-1 : Int), padDist) =
        [((-1 : Int), padDist), ((-1 : Int), padDist), ((-1 : Int), padDist)] := rfl
    norm_num [searchFaiss, scoredOf, innerProd, normalizeL2, normSqOf, ratSqrt_one,
      List.insertionSort, List.orderedInsert, candRel, candLe, List.range_succ, hrep]
  apply (c6_pool_walk [[1, 0], [0, 1]] [⟨"a", "s1"⟩, ⟨"b", "s2"⟩] [] [1, 0] ["zz"] 1
    (le_refl 1) ?_).2.2 ?_ (by simp)
  · intro c hc
    rw [hpool] at hc
    simp only [List.mem_cons, List.not_mem_nil, or_false] at hc
    rcases hc with rfl | rfl | rfl | rfl | rfl <;> simp [derefRow]
  · intro c hc row hrow
    rw [hpool] at hc
    simp only [List.mem_cons, List.not_mem_nil, or_false] at hc
    rcases hc with rfl | rfl | rfl | rfl | rfl <;>
      simp [derefRow] at hrow <;> rw [← hrow] <;> decide

/-! ## Claim C2 — order of the returned list -/

/-- Claim C2, as stated, is false.  Two accepted candidates tie at combined
score `1` (`"a"`: similarity 1, no boost; `"b"`: similarity 1/2 and velocity
2, boost `0.25*2`).  The original similarity rank has `"a"` first (and the
itemId-ascending order would also put `"a"` first), but
`chosen.sort(reverse=True)` orders Python tuples with equal scores by
`local_path` *descending*, so the code returns `["b", "a"]`, not
`["a", "b"]`. -/
theorem c2_counterexample :
    recommend [[1, 0], [1/2, 0]] [⟨"a", "s1"⟩, ⟨"b", "s2"⟩] [("s1", 0), ("s2", 2)]
      [1, 0] [] 2 = some (["b", "a"], ["s2", "s1"]) ∧
    (["b", "a"] : List String) ≠ ["a", "b"] := by
  constructor
  · have h1 : lookupVel [("s1", (0:ℚ)), ("s2", 2)] "s1" = 0 := rfl
    have h2 : lookupVel [("s1", (0:ℚ)), ("s2", 2)] "s2" = 2 := rfl
    have h3 : pyStrLt "a" "b" = true := by decide
    norm_num [recommend, recommendChosen, searchFaiss, scoredOf, innerProd, normalizeL2,
      normSqOf, ratSqrt_one, chooseLoop, derefRow, styleOk, entryOf, combinedScore,
      h1, h2, h3, pySortDesc, List.insertionSort, List.orderedInsert, candRel,
      candLe, pyDescRel, pyEntryLt, lexB, ratLtB, padDist, List.range_succ]
  · decide

/-- Claim C2 amended: the returned list is sorted by combined score
descending, but ties are broken by the Python tuple order — `local_path`
*descending*, then `style` descending (with fully equal tuples keeping their
acceptance order, the sort being stable) — not by original similarity rank or
by itemId ascending. -/
theorem c2_sort_descending (idx : List Vec) (items : List ItemRow)
    (latest : List (String × ℚ)) (q : Vec) (styles : List String) (k : ℕ)
    (l : List Entry) (h : recommendChosen idx items latest q styles k = some l) :
    List.Sorted pyDescRel l ∧
    List.Pairwise (fun a b : Entry => b.1 ≤ a.1) l := by
  rw [recommendChosen] at h
  obtain ⟨res, _, hsort⟩ := Option.map_eq_some'.mp h
  constructor
  · rw [← hsort]
    exact pySortDesc_sorted res
  · have hs : List.Sorted pyDescRel l := by
      rw [← hsort]
      exact pySortDesc_sorted res
    refine hs.imp ?_
    intro a b hab
    unfold pyDescRel pyEntryLt lexB at hab
    simp only [Bool.or_eq_false_iff, Bool.and_eq_false_iff, ratLtB,
      decide_eq_false_iff_not] at hab
    exact not_lt.mp hab.1

/-- Witness for C2: the tied two-entry output of the counterexample inputs is
sorted in the Python descending tuple order, with non-increasing scores. -/
theorem c2_witness :
    List.Sorted pyDescRel [((1 : ℚ), "b", "s2"), ((1 : ℚ), "a", "s1")] ∧
    List.Pairwise (fun a b : Entry => b.1 ≤ a.1)
      [((1 : ℚ), "b", "s2"), ((1 : ℚ), "a", "s1")] := by
  apply c2_sort_descending [[1, 0], [1/2, 0]] [⟨"a", "s1"⟩, ⟨"b", "s2"⟩]
    [("s1", 0), ("s2", 2)] [1, 0] [] 2
  have h1 : lookupVel [("s1", (0:ℚ)), ("s2", 2)] "s1" = 0 := rfl
  have h2 : lookupVel [("s1", (0:ℚ)), ("s2", 2)] "s2" = 2 := rfl
  have h3 : pyStrLt "a" "b" = true := by decide
  norm_num [recommendChosen, searchFaiss, scoredOf, innerProd, normalizeL2,
    normSqOf, ratSqrt_one, chooseLoop, derefRow, styleOk, entryOf, combinedScore,
    h1, h2, h3, pySortDesc, List.insertionSort, List.orderedInsert, candRel,
    candLe, pyDescRel, pyEntryLt, lexB, ratLtB, padDist, List.range_succ]

/-! ## Claim C1 — the EMA actually computed by `calc_trends` -/

/-- Claim C1, as stated, is false.  `calc_trends` smooths with pandas
`ewm(span=span).mean()` whose default is `adjust=True`, not the spec's plain
recursion: on the scenario (daily counts `[2,2,8,2]`, `span = 3`,
`alpha = 1/2`) the code computes ema `[2, 2, 38/7, 18/5]` and latest velocity
`-64/35 ≈ -1.829` — while the spec's recursion `emaSpecRecursive` yields
`[2, 2, 5, 7/2]` with last velocity `-3/2`, which differs. -/
theorem c1_counterexample :
    (calcTrendsFor 3 scenarioItems "streetwear").map (fun t => t.ema) =
      [2, 2, 38/7, 18/5] ∧
    ([2, 2, 38/7, 18/5] : List ℚ) ≠ [2, 2, 5, 7/2] ∧
    latestVelocityOf 3 scenarioItems "streetwear" = -(64/35) ∧
    (-(64/35) : ℚ) ≠ -(3/2) ∧
    emaSpecRecursive (1/2) [2, 2, 8, 2] = [2, 2, 5, 7/2] := by
  refine ⟨?_, by norm_num, ?_, by norm_num, ?_⟩
  · norm_num [calcTrendsFor, sortedDays, countOn, emaAdjusted, emaAux, diffFillZero,
      insertDay, scenarioItems, List.filter_cons, List.filter_nil]
  · norm_num [latestVelocityOf, calcTrendsFor, sortedDays, countOn, emaAdjusted, emaAux,
      diffFillZero, insertDay, scenarioItems, List.filter_cons, List.filter_nil]
  · norm_num [emaSpecRecursive, emaSpecAux]

/-- Claim C1 amended: for every category the smoothed curve is the pandas
`adjust=True` EMA — entry `i` is the `(1-alpha)`-geometrically-weighted
average of the counts up to day `i` (latest weighted `(1-alpha)^0`), i.e.
`ema[i] = (Σ_j (1-alpha)^(i-j)·count[j]) / (Σ_j (1-alpha)^(i-j))` with
`alpha = 2/(span+1)` — not the recursion `ema[i] = alpha·count[i] +
(1-alpha)·ema[i-1]`; on the scenario counts `[2,2,8,2]` with `span = 3` it
yields ema `[2, 2, 38/7, 18/5]`, velocity `[0, 0, 24/7, -64/35]`, and
`latestVelocity("streetwear") = -64/35`. -/
theorem c1_ema_adjust_true :
    (∀ (alpha : ℚ) (xs : List ℚ) (i : ℕ), i < xs.length →
      (emaAdjusted alpha xs).getD i 0 =
        wSum (1 - alpha) ((xs.take (i + 1)).reverse) /
          wSum (1 - alpha) (List.replicate (i + 1) 1)) ∧
    (calcTrendsFor 3 scenarioItems "streetwear").map (fun t => t.ema) =
      [2, 2, 38/7, 18/5] ∧
    (calcTrendsFor 3 scenarioItems "streetwear").map (fun t => t.velocity) =
      [0, 0, 24/7, -(64/35)] ∧
    latestVelocityOf 3 scenarioItems "streetwear" = -(64/35) := by
  refine ⟨?_, ?_, ?_, ?_⟩
  · intro alpha xs i h
    rw [emaAdjusted, emaAux_getD alpha xs 0 0 i h]
    simp
  · norm_num [calcTrendsFor, sortedDays, countOn, emaAdjusted, emaAux, diffFillZero,
      insertDay, scenarioItems, List.filter_cons, List.filter_nil]
  · norm_num [calcTrendsFor, sortedDays, countOn, emaAdjusted, emaAux, diffFillZero,
      insertDay, scenarioItems, List.filter_cons, List.filter_nil]
  · norm_num [latestVelocityOf, calcTrendsFor, sortedDays, countOn, emaAdjusted, emaAux,
      diffFillZero, insertDay, scenarioItems, List.filter_cons, List.filter_nil]

/-- Witness for C1: the closed form instantiated on the scenario counts at
`i = 3`, and its concrete value `18/5`. -/
theorem c1_witness :
    (emaAdjusted (1/2) [2, 2, 8, 2]).getD 3 0 =
      wSum (1 - 1/2) (([2, 2, 8, 2].take (3 + 1)).reverse) /
        wSum (1 - 1/2) (List.replicate (3 + 1) 1) ∧
    (emaAdjusted (1/2) [2, 2, 8, 2]).getD 3 0 = 18/5 := by
  refine ⟨c1_ema_adjust_true.1 (1/2) [2, 2, 8, 2] 3 (by norm_num), ?_⟩
  norm_num [emaAdjusted, emaAux]

/-! ## Claim C10 — `-1` padding dereferences as the last row -/

theorem filterMap_replicate_some {α β : Type} (f : α → Option β) (x : α) (y : β)
    (h : f x = some y) : ∀ j, (List.replicate j x).filterMap f = List.replicate j y := by
  intro j
  induction j with
  | zero => rfl
  | succ j ih =>
    rw [List.replicate_succ, List.filterMap_cons_some h, ih, ← List.replicate_succ]

/-- Claim C10: candidates are resolved positionally into the items table in
row order; when the requested pool `k*5` exceeds the index size the search
result contains `-1` fillers, `items.iloc[-1]` resolves them to the *last*
catalog row, and (with an empty filter and `k` above the catalog size) the
walk scores these phantom candidates instead of skipping them or raising:
the result still has exactly `k` entries, among them the phantom entry built
from the last row and the filler distance. -/
theorem c10_padding_phantom (idx : List Vec) (items : List ItemRow)
    (latest : List (String × ℚ)) (q : Vec) (k : ℕ)
    (hlen : idx.length = items.length) (hne : items ≠ [])
    (hk : items.length < k) :
    ((-1 : Int), padDist) ∈ searchFaiss idx (normalizeL2 q) (k * 5) ∧
    (∀ (i : ℕ) (hi : i < items.length), derefRow items (i : Int) = some items[i]) ∧
    derefRow items (-1) = some (items.getLast hne) ∧
    ∃ l, recommendChosen idx items latest q [] k = some l ∧ l.length = k ∧
      entryOf latest (items.getLast hne) padDist ∈ l := by
  have hm1 : 1 ≤ items.length := List.length_pos.mpr hne
  have hk1 : 1 ≤ k := by omega
  have hmn : idx.length ≤ k * 5 := by rw [hlen]; omega
  have hpads : k * 5 - idx.length ≠ 0 := by rw [hlen]; omega
  have hd := searchFaiss_deref idx items (normalizeL2 q) (k * 5) hlen hne
  have hpadOk : okScore items latest [] ((-1 : Int), padDist) =
      some (entryOf latest (items.getLast hne) padDist) := by
    simp [okScore, derefRow_neg_one items hne, styleOk]
  have hA0len : ((List.insertionSort candRel (scoredOf idx (normalizeL2 q))).map
      (fun p => ((p.1 : Int), p.2))).length = idx.length := by
    rw [List.length_map, List.length_insertionSort, length_scoredOf]
  have hF0 : ∀ c ∈ (List.insertionSort candRel (scoredOf idx (normalizeL2 q))).map
      (fun p => ((p.1 : Int), p.2)), (okScore items latest [] c).isSome = true := by
    intro c hc
    have hc2 : c ∈ searchFaiss idx (normalizeL2 q) (k * 5) := by
      rw [searchFaiss_eq_of_le idx (normalizeL2 q) (k * 5) hmn]
      exact List.mem_append_left _ hc
    obtain ⟨row, hrow⟩ := Option.isSome_iff_exists.mp (hd c hc2)
    simp [okScore, hrow, styleOk]
  have hF0len : (((List.insertionSort candRel (scoredOf idx (normalizeL2 q))).map
      (fun p => ((p.1 : Int), p.2))).filterMap (okScore items latest [])).length =
      idx.length := by
    rw [length_filterMap_eq_countP]
    have h1 := List.countP_congr (fun c hc => by simp [hF0 c hc] :
      ∀ c ∈ (List.insertionSort candRel (scoredOf idx (normalizeL2 q))).map
        (fun p => ((p.1 : Int), p.2)),
        ((okScore items latest [] c).isSome = true) ↔ ((fun _ => true) c = true))
    rw [h1, List.countP_true, hA0len]
  have haccept : (searchFaiss idx (normalizeL2 q) (k * 5)).filterMap
      (okScore items latest []) =
      (((List.insertionSort candRel (scoredOf idx (normalizeL2 q))).map
        (fun p => ((p.1 : Int), p.2))).filterMap (okScore items latest [])) ++
        List.replicate (k * 5 - idx.length)
          (entryOf latest (items.getLast hne) padDist) := by
    rw [searchFaiss_eq_of_le idx (normalizeL2 q) (k * 5) hmn, List.filterMap_append,
      filterMap_replicate_some _ _ _ hpadOk]
  have htake : List.take k ((searchFaiss idx (normalizeL2 q) (k * 5)).filterMap
      (okScore items latest [])) =
      (((List.insertionSort candRel (scoredOf idx (normalizeL2 q))).map
        (fun p => ((p.1 : Int), p.2))).filterMap (okScore items latest [])) ++
        List.replicate (k - idx.length)
          (entryOf latest (items.getLast hne) padDist) := by
    rw [haccept, take_append_of_le _ _ k (by rw [hF0len, hlen]; omega), hF0len,
      List.take_replicate]
    congr 1
    congr 1
    rw [hlen]
    omega
  refine ⟨?_, fun i hi => derefRow_nonneg items i hi, derefRow_neg_one items hne, ?_⟩
  · rw [searchFaiss_eq_of_le idx (normalizeL2 q) (k * 5) hmn]
    exact List.mem_append_right _ (List.mem_replicate.mpr ⟨hpads, rfl⟩)
  · refine ⟨pySortDesc (List.take k ((searchFaiss idx (normalizeL2 q) (k * 5)).filterMap
        (okScore items latest []))), ?_, ?_, ?_⟩
    · rw [recommendChosen, chooseLoop_eq items latest [] k
        (searchFaiss idx (normalizeL2 q) (k * 5)) [] hd (by simpa using hk1),
        Option.map_some']
      simp
    · rw [(pySortDesc_perm _).length_eq]
      rw [htake, List.length_append, hF0len, List.length_replicate]
      rw [hlen]
      omega
    · apply (pySortDesc_perm _).mem_iff.mpr
      rw [htake]
      apply List.mem_append_right
      apply List.mem_replicate.mpr
      refine ⟨?_, rfl⟩
      rw [hlen]
      omega

/-- Witness for C10: one item, `k = 2` — the pool is padded with `-1`, which
dereferences to the (only, hence last) row, and the result has 2 entries
although the catalog has 1. -/
theorem c10_witness :
    ((-1 : Int), padDist) ∈ searchFaiss [[1, 0]] (normalizeL2 [1, 0]) (2 * 5) ∧
    derefRow [⟨"a", "s"⟩] (-1) = some ⟨"a", "s"⟩ ∧
    ∃ l, recommendChosen [[1, 0]] [⟨"a", "s"⟩] [] [1, 0] [] 2 = some l ∧ l.length = 2 ∧
      entryOf [] ⟨"a", "s"⟩ padDist ∈ l := by
  have h := c10_padding_phantom [[1, 0]] [⟨"a", "s"⟩] [] [1, 0] 2 (by simp) (by simp)
    (by norm_num)
  exact ⟨h.1, h.2.2.1, h.2.2.2⟩

/-! ## Claim C7 — `k` larger than the number of satisfying items -/

/-- Claim C7, as stated, is false.  Catalog `[("a","A"), ("b","A")]`, empty
filter, `k = 3` (larger than the 2 satisfying items): the padded search
labels dereference to the last row, so the result is
`["a", "b", "b"]` — three entries with a duplicated phantom of the last row —
not the two satisfying items `["a", "b"]`. -/
theorem c7_counterexample :
    recommend [[1, 0], [0, 1]] [⟨"a", "A"⟩, ⟨"b", "A"⟩] [] [1, 0] [] 3 =
      some (["a", "b", "b"], ["A", "A", "A"]) ∧
    (["a", "b", "b"] : List String) ≠ ["a", "b"] := by
  constructor
  · have h1 : lookupVel [] "A" = 0 := rfl
    have hrep : List.replicate 13 ((-1 : Int), padDist) =
        [((-1 : Int), padDist), ((-1 : Int), padDist), ((-1 : Int), padDist),
         ((-1 : Int), padDist), ((-1 : Int), padDist), ((-1 : Int), padDist),
         ((-1 : Int), padDist), ((-1 : Int), padDist), ((-1 : Int), padDist),
         ((-1 : Int), padDist), ((-1 : Int), padDist), ((-1 : Int), padDist),
         ((-1 : Int), padDist)] := rfl
    norm_num [recommend, recommendChosen, searchFaiss, scoredOf, innerProd, normalizeL2,
      normSqOf, ratSqrt_one, chooseLoop, derefRow, styleOk, entryOf, combinedScore,
      h1, pySortDesc, List.insertionSort, List.orderedInsert, candRel, candLe,
      pyDescRel, pyEntryLt, lexB, ratLtB, pyStrLt, charListLtB, padDist,
      List.range_succ, hrep]
  · decide

/-- Claim C7 amended: when `k` exceeds the number of items whose category
satisfies the filter and the pool covers the whole catalog
(`items.length ≤ k*5`), `recommend` raises no error and every satisfying item
appears in the returned ranking — but the result is not exactly the
satisfying items: the `-1`-padded pool slots are also scored (duplicating the
last catalog row, see C10), and satisfying items outside the `k*5` pool would
be omitted. -/
theorem c7_all_satisfying_included (idx : List Vec) (items : List ItemRow)
    (latest : List (String × ℚ)) (q : Vec) (styles : List String) (k : ℕ)
    (hlen : idx.length = items.length) (hne : items ≠ [])
    (hcover : items.length ≤ k * 5)
    (hk : items.countP (fun r => styleOk styles r.style) < k) :
    ∃ l, recommendChosen idx items latest q styles k = some l ∧
      ∀ row ∈ items, styleOk styles row.style = true →
        row.localPath ∈ l.map (fun e => e.2.1) := by
  have hk1 : 1 ≤ k := by omega
  have hmn : idx.length ≤ k * 5 := by rw [hlen]; exact hcover
  have hd := searchFaiss_deref idx items (normalizeL2 q) (k * 5) hlen hne
  -- the length of the accepted source coming from real candidates
  have hF0len : (((List.insertionSort candRel (scoredOf idx (normalizeL2 q))).map
      (fun p => ((p.1 : Int), p.2))).filterMap (okScore items latest styles)).length =
      items.countP (fun r => styleOk styles r.style) := by
    rw [length_filterMap_eq_countP, List.countP_map]
    rw [(List.perm_insertionSort candRel (scoredOf idx (normalizeL2 q))).countP_eq]
    rw [scoredOf, List.countP_map, hlen]
    have hcongr : ∀ i ∈ List.range items.length,
        ((((fun c => (okScore items latest styles c).isSome) ∘
          (fun p => ((p.1 : Int), p.2))) ∘
            (fun i => (i, innerProd (normalizeL2 q) (idx.getD i [])))) i = true) ↔
        ((fun i => styleOk styles ((items.getD i ⟨"", ""⟩).style)) i = true) := by
      intro i hi
      have hi2 : i < items.length := List.mem_range.mp hi
      simp only [Function.comp]
      rw [okScore, derefRow_nonneg items i hi2]
      rw [List.getD_eq_getElem items ⟨"", ""⟩ hi2]
      cases hst : styleOk styles items[i].style <;> simp [hst]
    rw [List.countP_congr hcongr, countP_range_getD items ⟨"", ""⟩
      (fun r => styleOk styles r.style)]
  refine ⟨pySortDesc (List.take k ((searchFaiss idx (normalizeL2 q) (k * 5)).filterMap
      (okScore items latest styles))), ?_, ?_⟩
  · rw [recommendChosen, chooseLoop_eq items latest styles k
      (searchFaiss idx (normalizeL2 q) (k * 5)) [] hd (by simpa using hk1),
      Option.map_some']
    simp
  · intro row hrow hok
    obtain ⟨i, hi, hieq⟩ := List.getElem_of_mem hrow
    -- the candidate for position i is in the real part of the pool
    have hscored : (i, innerProd (normalizeL2 q) (idx.getD i [])) ∈
        scoredOf idx (normalizeL2 q) := by
      rw [scoredOf]
      exact List.mem_map.mpr ⟨i, List.mem_range.mpr (by omega), rfl⟩
    have hsorted : (i, innerProd (normalizeL2 q) (idx.getD i [])) ∈
        List.insertionSort candRel (scoredOf idx (normalizeL2 q)) :=
      (List.perm_insertionSort candRel _).mem_iff.mpr hscored
    have hcand : ((i : Int), innerProd (normalizeL2 q) (idx.getD i [])) ∈
        (List.insertionSort candRel (scoredOf idx (normalizeL2 q))).map
          (fun p => ((p.1 : Int), p.2)) :=
      List.mem_map.mpr ⟨_, hsorted, rfl⟩
    have hentry : okScore items latest styles
        ((i : Int), innerProd (normalizeL2 q) (idx.getD i [])) =
        some (entryOf latest row (innerProd (normalizeL2 q) (idx.getD i []))) := by
      rw [okScore, derefRow_nonneg items i hi, hieq]
      simp [hok]
    have hmem0 : entryOf latest row (innerProd (normalizeL2 q) (idx.getD i [])) ∈
        ((List.insertionSort candRel (scoredOf idx (normalizeL2 q))).map
          (fun p => ((p.1 : Int), p.2))).filterMap (okScore items latest styles) :=
      List.mem_filterMap.mpr ⟨_, hcand, hentry⟩
    have hmem1 : entryOf latest row (innerProd (normalizeL2 q) (idx.getD i [])) ∈
        List.take k ((searchFaiss idx (normalizeL2 q) (k * 5)).filterMap
          (okScore items latest styles)) := by
      rw [searchFaiss_eq_of_le idx (normalizeL2 q) (k * 5) hmn, List.filterMap_append,
        take_append_of_le _ _ k (by rw [hF0len]; omega)]
      exact List.mem_append_left _ hmem0
    have hmem2 : entryOf latest row (innerProd (normalizeL2 q) (idx.getD i [])) ∈
        pySortDesc (List.take k ((searchFaiss idx (normalizeL2 q) (k * 5)).filterMap
          (okScore items latest styles))) :=
      (pySortDesc_perm _).mem_iff.mpr hmem1
    exact List.mem_map.mpr ⟨_, hmem2, rfl⟩

/-- Witness for C7: catalog `[("a","A"), ("b","B")]`, filter `["A"]`
(1 satisfying item), `k = 2` — the call succeeds and `"a"` appears in the
returned ranking. -/
theorem c7_witness :
    ∃ l, recommendChosen [[1, 0], [0, 1]] [⟨"a", "A"⟩, ⟨"b", "B"⟩] [] [1, 0] ["A"] 2 =
      some l ∧ "a" ∈ l.map (fun e => e.2.1) := by
  obtain ⟨l, h1, h2⟩ := c7_all_satisfying_included [[1, 0], [0, 1]]
    [⟨"a", "A"⟩, ⟨"b", "B"⟩] [] [1, 0] ["A"] 2 (by simp) (by simp) (by norm_num)
    (by decide)
  exact ⟨l, h1, h2 ⟨"a", "A"⟩ (by simp) (by decide)⟩
